import Mathlib

/-!
Verification development for the `jupyterlite-pandoc-pdf-exporter` repository
(`src/pdf.ts`).  Document text and all other strings are shallowly embedded as
`List Char`; JavaScript string primitives (`indexOf`, `lastIndexOf`, `slice`,
`trim`, template literals) are translated to explicit index-based functions on
character lists.  The two external engines (pandoc-wasm and the Typst
compiler) are opaque collaborators; their observable outcomes are supplied as
oracle values, exactly at the call sites the source awaits them.
-/

/-- The backtick character, the fence delimiter of Pandoc's Typst code
blocks (character code 96). -/
def btick : Char := Char.ofNat 96

/-- Whitespace predicate used by `trimStr`, modelling the whitespace class of
JavaScript's `String.prototype.trim` and of the regex class used in
`preprocessNotebook` (space, tab, newline, carriage return, vertical tab,
form feed). -/
def isWsChar (c : Char) : Bool :=
  c = ' ' || c = '\t' || c = '\n' || c = '\r' || c = Char.ofNat 11 || c = Char.ofNat 12

/-- Remove leading whitespace (half of JavaScript `trim`). -/
def trimLeftStr (s : List Char) : List Char := s.dropWhile isWsChar

/-- Remove trailing whitespace (half of JavaScript `trim`). -/
def trimRightStr (s : List Char) : List Char := (s.reverse.dropWhile isWsChar).reverse

/-- JavaScript `String.prototype.trim` on a character list. -/
def trimStr (s : List Char) : List Char := trimRightStr (trimLeftStr s)

/-- Boolean prefix test: `isPre pat l` holds when `pat` is an initial segment
of `l` (the occurrence test behind JavaScript `indexOf`). -/
def isPre : List Char → List Char → Bool
  | [], _ => true
  | _ :: _, [] => false
  | a :: as, b :: bs => a = b && isPre as bs

/-- Helper for JavaScript `String.prototype.indexOf(pat)`: scan `l` from the
left, returning `i` plus the offset of the first position where `pat` is a
prefix of the remaining text. -/
def indexOfAux : List Char → List Char → Nat → Option Nat
  | [], pat, i => if isPre pat [] then some i else none
  | x :: rest, pat, i =>
    if isPre pat (x :: rest) then some i else indexOfAux rest pat (i + 1)

/-- JavaScript `doc.indexOf(pat)` (first occurrence, `none` for `-1`). -/
def indexOfSub (doc pat : List Char) : Option Nat := indexOfAux doc pat 0

/-- JavaScript `doc.includes(pat)`. -/
def containsSub (doc pat : List Char) : Bool := (indexOfSub doc pat).isSome

/-- Helper for JavaScript `doc.indexOf(char, from)`: scan a suffix, carrying
the absolute index. -/
def charIndexAux : List Char → Char → Nat → Option Nat
  | [], _, _ => none
  | x :: rest, c, i => if x = c then some i else charIndexAux rest c (i + 1)

/-- JavaScript `doc.indexOf(c, start)` (first occurrence at index `≥ start`,
`none` for `-1`). -/
def charIndexFrom (doc : List Char) (c : Char) (start : Nat) : Option Nat :=
  charIndexAux (doc.drop start) c start

/-- Index of the last occurrence of `c` in `l` (`none` when absent). -/
def lastIdx : List Char → Char → Option Nat
  | [], _ => none
  | x :: rest, c =>
    match lastIdx rest c with
    | some j => some (j + 1)
    | none => if x = c then some 0 else none

/-- JavaScript `doc.lastIndexOf(c, i)`: last occurrence at an index `≤ i`. -/
def lastIndexOfLe (doc : List Char) (c : Char) (i : Nat) : Option Nat :=
  lastIdx (doc.take (i + 1)) c

/-- The backward fence walk of `postprocessTypst`
(`while (fenceStart > 0 && typstContent[fenceStart-1] === backtick) fenceStart--`). -/
def backRun (doc : List Char) : Nat → Nat
  | 0 => 0
  | j + 1 => if doc.getD j ' ' = btick then backRun doc j else j + 1

/-- The forward fence walk of `postprocessTypst`
(`while (closingFenceEnd+1 < len && doc[closingFenceEnd+1] === backtick) closingFenceEnd++`). -/
def fwdRun (doc : List Char) (j : Nat) : Nat :=
  if h : j + 1 < doc.length ∧ doc.getD (j + 1) ' ' = btick then fwdRun doc (j + 1) else j
termination_by doc.length - j
decreasing_by
  omega

/-- JavaScript `doc.slice(0, e)` with a possibly negative end index (a
negative end counts from the end of the string). -/
def jsSliceUpto (doc : List Char) (e : Int) : List Char :=
  if e < 0 then doc.take (doc.length - (-e).toNat) else doc.take e.toNat

/-- Decimal digit list of a natural number (the JavaScript template-literal
rendering of the placeholder counter), fuel-structured so it reduces by
evaluation. -/
def natDigitsAux : Nat → Nat → List Char
  | 0, _ => []
  | fuel + 1, n =>
    if n < 10 then [Nat.digitChar n]
    else natDigitsAux fuel (n / 10) ++ [Nat.digitChar (n % 10)]

/-- Decimal rendering of a natural number. -/
def natDigits (n : Nat) : List Char := natDigitsAux (n + 1) n

/-- Decimal evaluation, the left inverse of `natDigits`. -/
def parseDigits (l : List Char) : Nat :=
  l.foldl (fun a c => 10 * a + (c.toNat - 48)) 0

/-- One MIME value of a notebook output: a string or a list of lines
(`string | string[]` in the source's `IpynbOutput` type). -/
inductive MimeVal where
  | str : List Char → MimeVal
  | arr : List (List Char) → MimeVal
deriving DecidableEq, Repr

/-- Join a MIME value into one string, as `Array.isArray(v) ? v.join('') : v`
does in `preprocessNotebook`. -/
def joinVal : MimeVal → List Char
  | MimeVal.str s => s
  | MimeVal.arr ls => ls.flatten

/-- The `data` mapping of an output: an association list from MIME type to
content, modelling a JavaScript object. -/
abbrev DataMap := List (List Char × MimeVal)

/-- Key `'text/latex'`. -/
def latexKey : List Char := "text/latex".data

/-- Key `'text/plain'`. -/
def plainKey : List Char := "text/plain".data

/-- JavaScript property read `d[k]` on the association-list model. -/
def lookupMime : DataMap → List Char → Option MimeVal
  | [], _ => none
  | p :: rest, k => if p.1 = k then some p.2 else lookupMime rest k

/-- JavaScript property write `d[k] = v`: overwrite in place when the key
exists, otherwise append. -/
def setMime (d : DataMap) (k : List Char) (v : MimeVal) : DataMap :=
  if d.any (fun p => p.1 = k) then d.map (fun p => if p.1 = k then (k, v) else p)
  else d ++ [(k, v)]

/-- JavaScript `delete d[k]`. -/
def eraseMime (d : DataMap) (k : List Char) : DataMap :=
  d.filter (fun p => !(p.1 = k : Bool))

/-- A notebook output (`output_type` plus optional `data` mapping; `data`
absent models a missing `data` attribute). -/
structure Output where
  output_type : List Char
  data : Option DataMap
deriving DecidableEq, Repr

/-- A notebook cell.  `outputs = none` models a cell whose `outputs`
attribute is not an array (`!Array.isArray(cell.outputs)`), e.g. a markdown
cell. -/
structure Cell where
  cell_type : List Char
  source : List Char
  outputs : Option (List Output)
deriving DecidableEq, Repr

/-- A notebook: an ordered list of cells. -/
structure Notebook where
  cells : List Cell
deriving DecidableEq, Repr

/-- The kind rewrite of `preprocessNotebook`:
`update_display_data` becomes `display_data`, all other kinds are kept. -/
def updKind (k : List Char) : List Char :=
  if k = "update_display_data".data then "display_data".data else k

/-- The `$\displaystyle …$` wrapper marker of `IPython.display.Math`
(14 characters). -/
def dsMarker : List Char := "$\\displaystyle".data

/-- Strip the display-math wrapper, modelling
`raw.match(/^\$\\displaystyle\s*([\s\S]*?)\s*\$$/)` in `preprocessNotebook`:
when `raw` starts with the marker and ends with a further `$`, the content
between (whitespace-trimmed, which is what the greedy `\s*` borders of the
lazy capture group produce) is returned; otherwise `raw` itself. -/
def stripDisplayStyle (raw : List Char) : List Char :=
  if isPre dsMarker raw = true ∧ raw.getLast? = some '$' ∧ dsMarker.length < raw.length then
    trimStr ((raw.drop dsMarker.length).dropLast)
  else raw

/-- The placeholder token `PDFEXPORTER_MATH_${counter}`. -/
def mkPlaceholder (n : Nat) : List Char := "PDFEXPORTER_MATH_".data ++ natDigits n

/-- Process a single output as the inner loop body of `preprocessNotebook`
does: rewrite the kind, and when a `text/latex` entry is present, record the
(stripped) math source under a fresh placeholder, overwrite `text/plain` with
the placeholder and delete `text/latex`.  Returns the updated output and the
math-map entry, if any. -/
def processOutput : Nat → Output → Output × Option (List Char × List Char)
  | _, Output.mk ot none => (Output.mk (updKind ot) none, none)
  | counter, Output.mk ot (some d) =>
    match lookupMime d latexKey with
    | none => (Output.mk (updKind ot) (some d), none)
    | some v =>
      let raw := trimStr (joinVal v)
      let mathContent := stripDisplayStyle raw
      let ph := mkPlaceholder counter
      let d1 := eraseMime (setMime d plainKey (MimeVal.str ph)) latexKey
      (Output.mk (updKind ot) (some d1), some (ph, mathContent))

/-- Process the outputs of one cell in order, threading the placeholder
counter and accumulating math-map entries in encounter order. -/
def processOutputs : Nat → List Output → List Output × List (List Char × List Char) × Nat
  | c, [] => ([], [], c)
  | c, o :: os =>
    match processOutput c o with
    | (o1, none) =>
      let r := processOutputs c os
      (o1 :: r.1, r.2.1, r.2.2)
    | (o1, some e) =>
      let r := processOutputs (c + 1) os
      (o1 :: r.1, e :: r.2.1, r.2.2)

/-- Process one cell: cells whose `outputs` attribute is not an array are
skipped unchanged (`continue` in the source). -/
def processCell (c : Nat) (cell : Cell) : Cell × List (List Char × List Char) × Nat :=
  match cell.outputs with
  | none => (cell, [], c)
  | some os =>
    let r := processOutputs c os
    ({ cell with outputs := some r.1 }, r.2.1, r.2.2)

/-- Process all cells in order, threading the counter. -/
def processCells : Nat → List Cell → List Cell × List (List Char × List Char) × Nat
  | c, [] => ([], [], c)
  | c, cell :: rest =>
    let r1 := processCell c cell
    let r2 := processCells r1.2.2 rest
    (r1.1 :: r2.1, r1.2.1 ++ r2.2.1, r2.2.2)

/-- `preprocessNotebook` of `src/pdf.ts`: mutate the notebook (returned as
the first component) and return the math map (placeholder, math source), in
insertion order, with the counter starting at 0. -/
def preprocessNotebook (nb : Notebook) : Notebook × List (List Char × List Char) :=
  let r := processCells 0 nb.cells
  ({ cells := r.1 }, r.2.1)

/-- The text strings present in a notebook's content: every cell source and
every output data value (joined).  Used to state the placeholder
non-collision claim. -/
def notebookTexts (nb : Notebook) : List (List Char) :=
  nb.cells.foldr
    (fun c acc =>
      c.source ::
        (match c.outputs with
         | none => []
         | some os =>
           os.foldr
             (fun o a =>
               (match o.data with
                | none => []
                | some d => d.map (fun p => joinVal p.2)) ++ a)
             []) ++ acc)
    []

/-- The per-fragment replacement text of `postprocessTypst`: the trimmed
stdout of the fragment conversion on success, or the literal
fallback code block embedding the raw LaTeX on a thrown conversion
(`conv = none`). -/
def typstMathFor (latexContent : List Char) (conv : Option (List Char)) : List Char :=
  match conv with
  | some out => trimStr out
  | none => "```latex\n".data ++ latexContent ++ "\n```".data

/-- One iteration of the `postprocessTypst` loop, after `typstMath` has been
computed: locate the first occurrence of the placeholder, scan backward to
the start of the opening fence (JavaScript `lastIndexOf` returning `-1` when
no fence character precedes, hence the `Int`-valued slice bound), scan
forward to the end of the closing fence, and replace the whole span; when
the placeholder or the closing fence is absent, return the document
unchanged (`continue`). -/
def spliceEntry (doc : List Char) (placeholder typstMath : List Char) : List Char :=
  match indexOfSub doc placeholder with
  | none => doc
  | some idx =>
    let fenceStart : Int :=
      match lastIndexOfLe doc btick idx with
      | none => -1
      | some fo => (backRun doc fo : Int)
    match charIndexFrom doc btick (idx + placeholder.length) with
    | none => doc
    | some closingFenceStart =>
      let closingFenceEnd := fwdRun doc closingFenceStart
      jsSliceUpto doc fenceStart ++ typstMath ++ '\n' :: doc.drop (closingFenceEnd + 1)

/-- `postprocessTypst` of `src/pdf.ts`: fold the splice step over the math
map in insertion order, the per-fragment pandoc invocation being the oracle
`frag` (`none` models a thrown conversion, handled by the literal
fallback). -/
def postprocessTypst (frag : List Char → Option (List Char)) (typstContent : List Char)
    (mathMap : List (List Char × List Char)) : List Char :=
  mathMap.foldl (fun doc e => spliceEntry doc e.1 (typstMathFor e.2 (frag e.2))) typstContent

/-- A progress-collaborator notification (`pdfExportProgress.start`,
`.update`, `.finish`). -/
inductive ProgressEvent where
  | start : List Char → ProgressEvent
  | update : List Char → ProgressEvent
  | finish : List Char → ProgressEvent
deriving DecidableEq, Repr

/-- The result object of the whole-notebook `pandocConvert` call. -/
structure ConvertResult where
  stdout : List Char
  stderr : List Char
  mediaFiles : List (List Char × List Char)
deriving DecidableEq, Repr

/-- The outcomes of the awaited external calls of one `PdfExporter.export`
invocation: engine initialization, the whole-notebook pandoc call, the
per-fragment pandoc calls, and the Typst compilation (a function of the
final markup; `Except.error` models a thrown exception, `Option.none` a
missing byte buffer). -/
structure ExportEnv where
  initResult : Except (List Char) Unit
  mainResult : Except (List Char) ConvertResult
  fragResult : List Char → Option (List Char)
  pdfResult : List Char → Except (List Char) (Option (List Nat))

/-- The body of the `try` block of `PdfExporter.export`: the sequence of
progress notifications emitted so far, and the outcome (`Except.error e`
models a thrown `Error` with message `e`).  The shadow-filesystem calls have
no observable effect in this model beyond the content handed to
`env.pdfResult`. -/
def exportBody (env : ExportEnv) (nb : Notebook) : List ProgressEvent × Except (List Char) Unit :=
  let ev1 := [ProgressEvent.start "Preparing PDF export…".data]
  match env.initResult with
  | Except.error e => (ev1, Except.error e)
  | Except.ok _ =>
    let ev2 := ev1 ++ [ProgressEvent.update "Converting notebook…".data]
    let mathMap := (preprocessNotebook nb).2
    match env.mainResult with
    | Except.error e => (ev2, Except.error e)
    | Except.ok result =>
      if result.stderr ≠ [] ∧ containsSub result.stderr "ERROR".data = true then
        (ev2, Except.error ("Pandoc conversion failed: ".data ++ result.stderr))
      else
        let typstContent :=
          if 0 < mathMap.length then postprocessTypst env.fragResult result.stdout mathMap
          else result.stdout
        let ev3 := ev2 ++ [ProgressEvent.update "Generating PDF…".data]
        match env.pdfResult typstContent with
        | Except.error e => (ev3, Except.error e)
        | Except.ok none => (ev3, Except.error "Typst produced empty PDF output".data)
        | Except.ok (some pdfData) =>
          if pdfData.length = 0 then (ev3, Except.error "Typst produced empty PDF output".data)
          else (ev3 ++ [ProgressEvent.finish "PDF exported successfully".data], Except.ok ())

/-- `PdfExporter.export`: the `try` body wrapped in the `catch` clause that
notifies the progress collaborator of failure and re-raises. -/
def exportRun (env : ExportEnv) (nb : Notebook) : List ProgressEvent × Except (List Char) Unit :=
  match exportBody env nb with
  | (evs, Except.error e) => (evs ++ [ProgressEvent.finish "PDF export failed".data], Except.error e)
  | (evs, Except.ok _) => (evs, Except.ok ())

/-- The module-level state behind `loadPandoc`: whether `pandocConvert` is
set, and the cached `pandocLoadingPromise` together with its settled
outcome. -/
structure PandocLoaderState where
  convertLoaded : Bool
  loadingPromise : Option (Except (List Char) Unit)

/-- One awaited call of `loadPandoc`, with the outcome the dynamic import
would have on this call supplied as `importResult`: a set `pandocConvert`
returns at once; a cached promise is returned (and awaited) as is; otherwise
the import runs, its outcome is cached, and `pandocConvert` is set only on
success. -/
def loadPandocStep (st : PandocLoaderState) (importResult : Except (List Char) Unit) :
    PandocLoaderState × Except (List Char) Unit :=
  if st.convertLoaded then (st, Except.ok ())
  else
    match st.loadingPromise with
    | some outcome => (st, outcome)
    | none =>
      let loaded := match importResult with
        | Except.ok _ => true
        | Except.error _ => false
      ({ convertLoaded := loaded, loadingPromise := some importResult }, importResult)

/-- The module-level state behind `loadTypst`: the `typstLoaded` flag and the
cached `typstLoadingPromise` with its settled outcome. -/
structure TypstLoaderState where
  typstLoaded : Bool
  loadingPromise : Option (Except (List Char) Unit)

/-- One awaited call of `loadTypst`, mirroring `loadPandocStep` (the polling
loop that waits for the global to appear is collapsed into the success
outcome of the import). -/
def loadTypstStep (st : TypstLoaderState) (importResult : Except (List Char) Unit) :
    TypstLoaderState × Except (List Char) Unit :=
  if st.typstLoaded then (st, Except.ok ())
  else
    match st.loadingPromise with
    | some outcome => (st, outcome)
    | none =>
      let loaded := match importResult with
        | Except.ok _ => true
        | Except.error _ => false
      ({ typstLoaded := loaded, loadingPromise := some importResult }, importResult)

/-- The consecutive counter values `[c, c+1, …, c+k-1]` handed out by one
extraction call. -/
def natsFrom : Nat → Nat → List Nat
  | _, 0 => []
  | c, k + 1 => c :: natsFrom (c + 1) k

/-- A one-cell notebook whose single output carries a `text/latex` value:
the input shape of the math-extraction claims. -/
def mkMathNotebook (v : MimeVal) : Notebook :=
  Notebook.mk [Cell.mk "code".data []
    (some [Output.mk "execute_result".data (some [(latexKey, v)])])]

/-- An output carries no math representation: its `data` mapping is absent or
has no `text/latex` entry. -/
def noLatex (o : Output) : Prop :=
  match o.data with
  | none => True
  | some d => lookupMime d latexKey = none

/-- The frame condition of the extractor on one cell: cell type and source
are untouched, a cell whose `outputs` attribute is not an array is returned
unchanged, and an output with no `text/latex` entry is unchanged except for
the `update_display_data` kind rewrite. -/
def preservesFrame (c c1 : Cell) : Prop :=
  c1.cell_type = c.cell_type ∧ c1.source = c.source ∧
  (c.outputs = none → c1 = c) ∧
  (∀ os os1, c.outputs = some os → c1.outputs = some os1 →
    List.Forall₂
      (fun o o1 => noLatex o → o1 = { o with output_type := updKind o.output_type }) os os1)

/-- A notebook that already contains the text of the first placeholder token
in a cell source, before extraction runs. -/
def collidingNotebook : Notebook :=
  Notebook.mk [Cell.mk "code".data "PDFEXPORTER_MATH_0".data
    (some [Output.mk "display_data".data (some [(latexKey, MimeVal.str "x".data)])])]

/-- The kind rewrite seen cell-by-cell: a non-array `outputs` attribute stays
non-array, and array outputs are rewritten pointwise by `updKind`. -/
def kindsRewritten (c c1 : Cell) : Prop :=
  (c.outputs = none → c1.outputs = none) ∧
  (∀ os os1, c.outputs = some os → c1.outputs = some os1 →
    List.Forall₂ (fun o o1 => o1.output_type = updKind o.output_type) os os1)

theorem dropAppendRight (X : List Char) : ∀ (Y : List Char) (n : Nat),
    (X ++ Y).drop (X.length + n) = Y.drop n := by
  induction X with
  | nil => intro Y n; simp
  | cons x xs ih =>
    intro Y n
    have h1 : (x :: xs).length + n = (xs.length + n) + 1 := by
      simp [List.length_cons]; omega
    rw [h1]
    exact ih Y n

theorem takeAppendRight (X : List Char) : ∀ (Y : List Char) (n : Nat),
    (X ++ Y).take (X.length + n) = X ++ Y.take n := by
  induction X with
  | nil => intro Y n; simp
  | cons x xs ih =>
    intro Y n
    have h1 : (x :: xs).length + n = (xs.length + n) + 1 := by
      simp [List.length_cons]; omega
    rw [h1]
    show x :: (xs ++ Y).take (xs.length + n) = x :: (xs ++ Y.take n)
    rw [ih Y n]

theorem dropAppendSelf (X Y : List Char) : (X ++ Y).drop X.length = Y :=
  List.drop_left X Y

theorem takeAppendSelf (X Y : List Char) : (X ++ Y).take X.length = X :=
  List.take_left X Y

theorem isPreAppendSelf (P : List Char) : ∀ (Z : List Char), isPre P (P ++ Z) = true := by
  induction P with
  | nil => intro Z; rfl
  | cons p ps ih => intro Z; simp [isPre, ih]

theorem isPreNil (pat : List Char) : isPre pat [] = true ↔ pat = [] := by
  cases pat with
  | nil => simp [isPre]
  | cons a as => simp [isPre]

theorem indexOfAuxFirst : ∀ (l pat : List Char) (j i : Nat),
    (∀ t, t < j → isPre pat (l.drop t) = false) → isPre pat (l.drop j) = true →
    indexOfAux l pat i = some (i + j) := by
  intro l
  induction l with
  | nil =>
    intro pat j i hfalse htrue
    cases j with
    | zero => simp only [List.drop_nil] at htrue; simp [indexOfAux, htrue]
    | succ j' =>
      have h0 := hfalse 0 (Nat.succ_pos j')
      simp only [List.drop_nil] at h0 htrue
      rw [h0] at htrue; exact absurd htrue (by simp)
  | cons x rest ih =>
    intro pat j i hfalse htrue
    cases j with
    | zero =>
      simp only [List.drop_zero] at htrue
      simp [indexOfAux, htrue]
    | succ j' =>
      have h0 := hfalse 0 (Nat.succ_pos j')
      simp only [List.drop_zero] at h0
      have hrec := ih pat j' (i + 1)
        (fun t ht => hfalse (t + 1) (Nat.succ_lt_succ ht)) htrue
      simp only [indexOfAux, h0]
      rw [hrec]
      simp; omega

theorem indexOfAuxNone : ∀ (l pat : List Char) (i : Nat),
    (∀ t, isPre pat (l.drop t) = false) → indexOfAux l pat i = none := by
  intro l
  induction l with
  | nil =>
    intro pat i hfalse
    have h0 := hfalse 0
    simp only [List.drop_nil] at h0
    simp [indexOfAux, h0]
  | cons x rest ih =>
    intro pat i hfalse
    have h0 := hfalse 0
    simp only [List.drop_zero] at h0
    simp only [indexOfAux, h0]
    exact ih pat (i + 1) (fun t => hfalse (t + 1))

theorem charIndexAuxFirst : ∀ (X : List Char) (c : Char) (Z : List Char) (i : Nat),
    (∀ a, a ∈ X → a ≠ c) → charIndexAux (X ++ c :: Z) c i = some (i + X.length) := by
  intro X
  induction X with
  | nil => intro c Z i _; simp [charIndexAux]
  | cons x xs ih =>
    intro c Z i hX
    have hx : x ≠ c := hX x (List.mem_cons_self x xs)
    show (if x = c then some i else charIndexAux (xs ++ c :: Z) c (i + 1)) = some (i + (x :: xs).length)
    rw [if_neg hx, ih c Z (i + 1) (fun a ha => hX a (List.mem_cons_of_mem x ha))]
    simp [List.length_cons]; omega

theorem charIndexAuxNone : ∀ (l : List Char) (c : Char) (i : Nat),
    (∀ a, a ∈ l → a ≠ c) → charIndexAux l c i = none := by
  intro l
  induction l with
  | nil => intro c i _; rfl
  | cons x xs ih =>
    intro c i h
    have hx : x ≠ c := h x (List.mem_cons_self x xs)
    simp only [charIndexAux, hx, if_false]
    exact ih c (i + 1) (fun a ha => h a (List.mem_cons_of_mem x ha))

theorem lastIdxAppend : ∀ (A B : List Char) (c : Char),
    lastIdx (A ++ B) c =
      (match lastIdx B c with
       | some j => some (A.length + j)
       | none => lastIdx A c) := by
  intro A
  induction A with
  | nil => intro B c; cases h : lastIdx B c <;> simp [h, lastIdx]
  | cons x xs ih =>
    intro B c
    have hx : lastIdx ((x :: xs) ++ B) c =
        (match lastIdx (xs ++ B) c with
         | some j => some (j + 1)
         | none => if x = c then some 0 else none) := rfl
    rw [hx, ih B c]
    cases h : lastIdx B c with
    | some j =>
      show some (xs.length + j + 1) = some ((x :: xs).length + j)
      simp only [List.length_cons, Option.some.injEq]
      omega
    | none => rfl

theorem lastIdxNone : ∀ (l : List Char) (c : Char),
    (∀ a, a ∈ l → a ≠ c) → lastIdx l c = none := by
  intro l
  induction l with
  | nil => intro c _; rfl
  | cons x xs ih =>
    intro c h
    have hx : x ≠ c := h x (List.mem_cons_self x xs)
    simp only [lastIdx, ih c (fun a ha => h a (List.mem_cons_of_mem x ha)), hx]
    simp [hx]

theorem lastIdxReplicate : ∀ (k : Nat) (c : Char), 0 < k →
    lastIdx (List.replicate k c) c = some (k - 1) := by
  intro k
  induction k with
  | zero => intro c h; omega
  | succ k' ih =>
    intro c _
    have hstep : lastIdx (List.replicate (k' + 1) c) c =
        (match lastIdx (List.replicate k' c) c with
         | some j => some (j + 1)
         | none => if c = c then some 0 else none) := rfl
    cases k' with
    | zero => simp [hstep, lastIdx]
    | succ k'' =>
      rw [hstep, ih c (Nat.succ_pos k'')]
      simp

theorem getDAppendRightAt (W Z : List Char) (u : Nat) (d : Char) :
    (W ++ Z).getD (W.length + u) d = Z.getD u d := by
  rw [List.getD_append_right W Z d (W.length + u) (by omega)]
  congr 1
  omega

theorem getDAppendLeftAt (W Z : List Char) (u : Nat) (d : Char) (h : u < W.length) :
    (W ++ Z).getD u d = W.getD u d :=
  List.getD_append W Z d u h

theorem getDReplicateAt : ∀ (k n : Nat) (c d : Char), n < k →
    (List.replicate k c).getD n d = c := by
  intro k
  induction k with
  | zero => intro n c d h; omega
  | succ k' ih =>
    intro n c d h
    cases n with
    | zero => rfl
    | succ n' => exact ih n' c d (by omega)

theorem getDOutOfRange (l : List Char) (n : Nat) (d : Char) (h : l.length ≤ n) :
    l.getD n d = d :=
  List.getD_eq_default l d h

theorem backRunExit (doc : List Char) (s : Nat)
    (h : s = 0 ∨ doc.getD (s - 1) ' ' ≠ btick) : backRun doc s = s := by
  cases s with
  | zero => rfl
  | succ j =>
    have hj : doc.getD j ' ' ≠ btick := by
      cases h with
      | inl h0 => omega
      | inr h1 => simpa using h1
    show (if doc.getD j ' ' = btick then backRun doc j else j + 1) = j + 1
    rw [if_neg hj]

theorem backRunRun (doc : List Char) (s : Nat) : ∀ (m : Nat),
    (∀ t, t < m → doc.getD (s + t) ' ' = btick) →
    (s = 0 ∨ doc.getD (s - 1) ' ' ≠ btick) → backRun doc (s + m) = s := by
  intro m
  induction m with
  | zero => intro _ hexit; exact backRunExit doc s hexit
  | succ m' ih =>
    intro hrun hexit
    have h1 : doc.getD (s + m') ' ' = btick := hrun m' (Nat.lt_succ_self m')
    have h2 : backRun doc (s + (m' + 1)) = backRun doc (s + m') := by
      show (if doc.getD (s + m') ' ' = btick then backRun doc (s + m') else (s + m') + 1) =
        backRun doc (s + m')
      rw [if_pos h1]
    rw [h2]
    exact ih (fun t ht => hrun t (by omega)) hexit

theorem fwdRunRun (doc : List Char) : ∀ (m s : Nat),
    (∀ t, 0 < t → t ≤ m → doc.getD (s + t) ' ' = btick) →
    doc.getD (s + m + 1) ' ' ≠ btick → fwdRun doc s = s + m := by
  intro m
  induction m with
  | zero =>
    intro s _ hexit
    have hcond : ¬ (s + 1 < doc.length ∧ doc.getD (s + 1) ' ' = btick) := by
      intro hc
      exact hexit (by simpa using hc.2)
    rw [fwdRun, dif_neg hcond]
    rfl
  | succ m' ih =>
    intro s hrun hexit
    have hbt : doc.getD (s + 1) ' ' = btick := hrun 1 (by omega) (by omega)
    have hlt : s + 1 < doc.length := by
      by_contra hge
      rw [getDOutOfRange doc (s + 1) ' ' (by omega)] at hbt
      exact absurd hbt (by decide)
    rw [fwdRun, dif_pos ⟨hlt, hbt⟩]
    have hrec : fwdRun doc (s + 1) = (s + 1) + m' := by
      apply ih (s + 1)
      · intro t ht htm
        have h3 : s + 1 + t = s + (t + 1) := by omega
        rw [h3]
        exact hrun (t + 1) (by omega) (by omega)
      · have h4 : s + 1 + m' + 1 = s + (m' + 1) + 1 := by omega
        rw [h4]
        exact hexit
    rw [hrec]
    omega

theorem getDDrop : ∀ (n : Nat) (l : List Char) (u : Nat) (d : Char),
    (l.drop n).getD u d = l.getD (n + u) d := by
  intro n
  induction n with
  | zero => intro l u d; rw [List.drop_zero, Nat.zero_add]
  | succ n' ih =>
    intro l u d
    cases l with
    | nil => rfl
    | cons x xs =>
      have e : n' + 1 + u = (n' + u) + 1 := by omega
      rw [e]
      show (xs.drop n').getD u d = xs.getD (n' + u) d
      exact ih xs u d

theorem spliceEntryFenced (A M P N R T : List Char) (k1 k2 : Nat)
    (hk1 : 0 < k1) (hk2 : 0 < k2) (hP : P ≠ [])
    (hPb : ∀ a, a ∈ P → a ≠ btick)
    (hM : ∀ a, a ∈ M → a ≠ btick)
    (hN : ∀ a, a ∈ N → a ≠ btick)
    (hA : A.getD (A.length - 1) ' ' ≠ btick)
    (hR : R.getD 0 ' ' ≠ btick)
    (hfirst : ∀ j, j < A.length + k1 + M.length →
      isPre P ((A ++ (List.replicate k1 btick ++ (M ++ (P ++ (N ++ (List.replicate k2 btick ++ R)))))).drop j) = false) :
    spliceEntry (A ++ (List.replicate k1 btick ++ (M ++ (P ++ (N ++ (List.replicate k2 btick ++ R)))))) P T
      = A ++ (T ++ '\n' :: R) := by
  cases P with
  | nil => exact absurd rfl hP
  | cons p0 P' =>
  cases k2 with
  | zero => omega
  | succ k2' =>
  set doc := A ++ (List.replicate k1 btick ++ (M ++ ((p0 :: P') ++ (N ++ (List.replicate (k2' + 1) btick ++ R))))) with hdoc
  have hdropP : doc.drop (A.length + k1 + M.length) =
      (p0 :: P') ++ (N ++ (List.replicate (k2' + 1) btick ++ R)) := by
    rw [hdoc]
    have e1 : A.length + k1 + M.length = A.length + (k1 + M.length) := by omega
    rw [e1, dropAppendRight]
    have e2 : k1 + M.length = (List.replicate k1 btick).length + M.length := by simp
    rw [e2, dropAppendRight]
    exact dropAppendSelf M _
  have hocc : isPre (p0 :: P') (doc.drop (A.length + k1 + M.length)) = true := by
    rw [hdropP]
    exact isPreAppendSelf _ _
  have hidx : indexOfSub doc (p0 :: P') = some (A.length + k1 + M.length) := by
    have h0 := indexOfAuxFirst doc (p0 :: P') (A.length + k1 + M.length) 0
      (fun t ht => hfirst t ht) hocc
    simpa [indexOfSub] using h0
  have htake : doc.take (A.length + k1 + M.length + 1) =
      A ++ (List.replicate k1 btick ++ (M ++ [p0])) := by
    rw [hdoc]
    have e1 : A.length + k1 + M.length + 1 = A.length + (k1 + (M.length + 1)) := by omega
    rw [e1, takeAppendRight]
    congr 1
    have e2 : k1 + (M.length + 1) = (List.replicate k1 btick).length + (M.length + 1) := by simp
    rw [e2, takeAppendRight]
    congr 1
    rw [takeAppendRight M _ 1]
    rfl
  have hMp0 : lastIdx (M ++ [p0]) btick = none := by
    apply lastIdxNone
    intro a ha
    rcases List.mem_append.mp ha with hMm | hpm
    · exact hM a hMm
    · have ha2 : a = p0 := by simpa using hpm
      rw [ha2]
      exact hPb p0 (List.mem_cons_self _ _)
  have hInner : lastIdx (List.replicate k1 btick ++ (M ++ [p0])) btick = some (k1 - 1) := by
    rw [lastIdxAppend, hMp0, lastIdxReplicate k1 btick hk1]
  have hlastLe : lastIndexOfLe doc btick (A.length + k1 + M.length) = some (A.length + (k1 - 1)) := by
    unfold lastIndexOfLe
    rw [htake, lastIdxAppend, hInner]
  have hback : backRun doc (A.length + (k1 - 1)) = A.length := by
    apply backRunRun
    · intro t ht
      rw [hdoc, getDAppendRightAt]
      rw [getDAppendLeftAt _ _ t ' ' (by simp; omega)]
      exact getDReplicateAt k1 t btick ' ' (by omega)
    · by_cases hA0 : A.length = 0
      · exact Or.inl hA0
      · refine Or.inr ?_
        rw [hdoc, getDAppendLeftAt _ _ _ ' ' (by omega)]
        exact hA
  have hdrop2 : doc.drop (A.length + k1 + M.length + (p0 :: P').length) =
      N ++ (List.replicate (k2' + 1) btick ++ R) := by
    rw [hdoc]
    have e1 : A.length + k1 + M.length + (p0 :: P').length =
        A.length + (k1 + (M.length + (p0 :: P').length)) := by omega
    rw [e1, dropAppendRight]
    have e2 : k1 + (M.length + (p0 :: P').length) =
        (List.replicate k1 btick).length + (M.length + (p0 :: P').length) := by simp
    rw [e2, dropAppendRight]
    rw [dropAppendRight M]
    exact dropAppendSelf _ _
  have hcif : charIndexFrom doc btick (A.length + k1 + M.length + (p0 :: P').length) =
      some (A.length + k1 + M.length + (p0 :: P').length + N.length) := by
    unfold charIndexFrom
    rw [hdrop2]
    have e3 : List.replicate (k2' + 1) btick ++ R = btick :: (List.replicate k2' btick ++ R) := rfl
    rw [e3]
    exact charIndexAuxFirst N btick _ _ hN
  have hfwd : fwdRun doc (A.length + k1 + M.length + (p0 :: P').length + N.length) =
      A.length + k1 + M.length + (p0 :: P').length + N.length + k2' := by
    apply fwdRunRun
    · intro t ht0 htm
      have e1 : A.length + k1 + M.length + (p0 :: P').length + N.length + t =
          A.length + k1 + M.length + (p0 :: P').length + (N.length + t) := by omega
      rw [e1, ← getDDrop, hdrop2, getDAppendRightAt]
      rw [getDAppendLeftAt _ _ t ' ' (by simp; omega)]
      exact getDReplicateAt (k2' + 1) t btick ' ' (by omega)
    · have e2 : A.length + k1 + M.length + (p0 :: P').length + N.length + k2' + 1 =
          A.length + k1 + M.length + (p0 :: P').length + (N.length + (k2' + 1)) := by omega
      rw [e2, ← getDDrop, hdrop2, getDAppendRightAt]
      have hgr : (List.replicate (k2' + 1) btick ++ R).getD (k2' + 1) ' ' = R.getD 0 ' ' := by
        have h6 := getDAppendRightAt (List.replicate (k2' + 1) btick) R 0 ' '
        simpa using h6
      rw [hgr]
      exact hR
  have hsliceA : jsSliceUpto doc ((A.length : Nat) : Int) = A := by
    unfold jsSliceUpto
    rw [if_neg (by omega), Int.toNat_natCast, hdoc]
    exact takeAppendSelf A _
  have hdropR : doc.drop (A.length + k1 + M.length + (p0 :: P').length + N.length + k2' + 1) = R := by
    rw [hdoc]
    have e1 : A.length + k1 + M.length + (p0 :: P').length + N.length + k2' + 1 =
        A.length + (k1 + (M.length + ((p0 :: P').length + (N.length + (k2' + 1))))) := by omega
    rw [e1, dropAppendRight]
    have e2 : k1 + (M.length + ((p0 :: P').length + (N.length + (k2' + 1)))) =
        (List.replicate k1 btick).length + (M.length + ((p0 :: P').length + (N.length + (k2' + 1)))) := by simp
    rw [e2, dropAppendRight]
    rw [dropAppendRight M]
    rw [dropAppendRight (p0 :: P')]
    rw [dropAppendRight N]
    simp
  simp only [spliceEntry, hidx, hlastLe, hback, hcif, hfwd]
  rw [hsliceA, hdropR, List.append_assoc]

theorem updKindNe (k : List Char) : updKind k ≠ "update_display_data".data := by
  unfold updKind
  by_cases h : k = "update_display_data".data
  · rw [if_pos h]
    decide
  · rw [if_neg h]
    exact h

theorem processOutputKind (c : Nat) (o : Output) :
    ((processOutput c o).1).output_type = updKind o.output_type := by
  cases o with
  | mk ot dt =>
    cases dt with
    | none => rfl
    | some d =>
      simp only [processOutput]
      cases h2 : lookupMime d latexKey <;> rfl

theorem processOutputFrame (c : Nat) (o : Output) (hn : noLatex o) :
    (processOutput c o).1 = { o with output_type := updKind o.output_type } := by
  cases o with
  | mk ot dt =>
    cases dt with
    | none => rfl
    | some d =>
      have hn2 : lookupMime d latexKey = none := by
        unfold noLatex at hn
        exact hn
      simp only [processOutput, hn2]

theorem processOutputEntryKey (c : Nat) (o : Output) (e : List Char × List Char)
    (h : (processOutput c o).2 = some e) : e.1 = mkPlaceholder c := by
  cases o with
  | mk ot dt =>
    cases dt with
    | none => simp [processOutput] at h
    | some d =>
      simp only [processOutput] at h
      cases h2 : lookupMime d latexKey with
      | none => rw [h2] at h; simp at h
      | some v =>
        rw [h2] at h
        simp only [Option.some.injEq] at h
        rw [← h]

theorem processOutputsKinds (os : List Output) : ∀ (c : Nat),
    List.Forall₂ (fun o o1 => o1.output_type = updKind o.output_type) os (processOutputs c os).1 := by
  induction os with
  | nil => intro c; exact List.Forall₂.nil
  | cons o os' ih =>
    intro c
    rcases hpo : processOutput c o with ⟨o1, entry⟩
    have hk : o1.output_type = updKind o.output_type := by
      have h2 := processOutputKind c o
      rw [hpo] at h2
      exact h2
    cases entry with
    | none =>
      simp only [processOutputs, hpo]
      exact List.Forall₂.cons hk (ih c)
    | some e =>
      simp only [processOutputs, hpo]
      exact List.Forall₂.cons hk (ih (c + 1))

theorem processOutputsFrame (os : List Output) : ∀ (c : Nat),
    List.Forall₂
      (fun o o1 => noLatex o → o1 = { o with output_type := updKind o.output_type })
      os (processOutputs c os).1 := by
  induction os with
  | nil => intro c; exact List.Forall₂.nil
  | cons o os' ih =>
    intro c
    rcases hpo : processOutput c o with ⟨o1, entry⟩
    have hf : noLatex o → o1 = { o with output_type := updKind o.output_type } := by
      intro hn
      have h2 := processOutputFrame c o hn
      rw [hpo] at h2
      exact h2
    cases entry with
    | none =>
      simp only [processOutputs, hpo]
      exact List.Forall₂.cons hf (ih c)
    | some e =>
      simp only [processOutputs, hpo]
      exact List.Forall₂.cons hf (ih (c + 1))

theorem processOutputsNoUpd (os : List Output) : ∀ (c : Nat) (o1 : Output),
    o1 ∈ (processOutputs c os).1 → o1.output_type ≠ "update_display_data".data := by
  induction os with
  | nil => intro c o1 h; simp [processOutputs] at h
  | cons o os' ih =>
    intro c o1 h
    rcases hpo : processOutput c o with ⟨oh, entry⟩
    have hk : oh.output_type = updKind o.output_type := by
      have h2 := processOutputKind c o
      rw [hpo] at h2
      exact h2
    cases entry with
    | none =>
      simp only [processOutputs, hpo] at h
      rcases List.mem_cons.mp h with h1 | h2
      · rw [h1, hk]
        exact updKindNe _
      · exact ih c o1 h2
    | some e =>
      simp only [processOutputs, hpo] at h
      rcases List.mem_cons.mp h with h1 | h2
      · rw [h1, hk]
        exact updKindNe _
      · exact ih (c + 1) o1 h2

theorem processOutputsKeys (os : List Output) : ∀ (c : Nat),
    ∃ k, (processOutputs c os).2.2 = c + k ∧
      (processOutputs c os).2.1.map Prod.fst = (natsFrom c k).map mkPlaceholder := by
  induction os with
  | nil => intro c; exact ⟨0, rfl, rfl⟩
  | cons o os' ih =>
    intro c
    rcases hpo : processOutput c o with ⟨o1, entry⟩
    cases entry with
    | none =>
      obtain ⟨k, hc, hm⟩ := ih c
      refine ⟨k, ?_, ?_⟩
      · simp only [processOutputs, hpo]
        exact hc
      · simp only [processOutputs, hpo]
        exact hm
    | some e =>
      obtain ⟨k, hc, hm⟩ := ih (c + 1)
      have hkey : e.1 = mkPlaceholder c :=
        processOutputEntryKey c o e (by rw [hpo])
      refine ⟨k + 1, ?_, ?_⟩
      · simp only [processOutputs, hpo]
        rw [hc]
        omega
      · simp only [processOutputs, hpo]
        rw [List.map_cons, hm, hkey]
        rfl

theorem natsFromAppend : ∀ (k1 c k2 : Nat),
    natsFrom c (k1 + k2) = natsFrom c k1 ++ natsFrom (c + k1) k2 := by
  intro k1
  induction k1 with
  | zero =>
    intro c k2
    simp only [Nat.zero_add, Nat.add_zero]
    rfl
  | succ k1' ih =>
    intro c k2
    have e1 : k1' + 1 + k2 = (k1' + k2) + 1 := by omega
    rw [e1]
    show c :: natsFrom (c + 1) (k1' + k2) = (c :: natsFrom (c + 1) k1') ++ natsFrom (c + (k1' + 1)) k2
    rw [ih (c + 1) k2]
    have e2 : c + 1 + k1' = c + (k1' + 1) := by omega
    rw [e2]
    rfl

theorem memNatsFromGe : ∀ (k c n : Nat), n ∈ natsFrom c k → c ≤ n := by
  intro k
  induction k with
  | zero => intro c n h; simp [natsFrom] at h
  | succ k' ih =>
    intro c n h
    have h2 : n ∈ c :: natsFrom (c + 1) k' := h
    rcases List.mem_cons.mp h2 with h3 | h4
    · omega
    · have := ih (c + 1) n h4
      omega

theorem nodupNatsFrom : ∀ (k c : Nat), (natsFrom c k).Nodup := by
  intro k
  induction k with
  | zero => intro c; exact List.nodup_nil
  | succ k' ih =>
    intro c
    show (c :: natsFrom (c + 1) k').Nodup
    refine List.nodup_cons.mpr ⟨?_, ih (c + 1)⟩
    intro hmem
    have := memNatsFromGe k' (c + 1) c hmem
    omega

theorem processCellKeys (c : Nat) (cell : Cell) :
    ∃ k, (processCell c cell).2.2 = c + k ∧
      (processCell c cell).2.1.map Prod.fst = (natsFrom c k).map mkPlaceholder := by
  unfold processCell
  cases h : cell.outputs with
  | none => exact ⟨0, rfl, rfl⟩
  | some os =>
    obtain ⟨k, hc, hm⟩ := processOutputsKeys os c
    exact ⟨k, hc, hm⟩

theorem processCellsKeys (cells : List Cell) : ∀ (c : Nat),
    ∃ k, (processCells c cells).2.2 = c + k ∧
      (processCells c cells).2.1.map Prod.fst = (natsFrom c k).map mkPlaceholder := by
  induction cells with
  | nil => intro c; exact ⟨0, rfl, rfl⟩
  | cons cell rest ih =>
    intro c
    obtain ⟨k1, hc1, hm1⟩ := processCellKeys c cell
    obtain ⟨k2, hc2, hm2⟩ := ih ((processCell c cell).2.2)
    refine ⟨k1 + k2, ?_, ?_⟩
    · show (processCells ((processCell c cell).2.2) rest).2.2 = c + (k1 + k2)
      rw [hc2, hc1]
      omega
    · show ((processCell c cell).2.1 ++ (processCells ((processCell c cell).2.2) rest).2.1).map Prod.fst
        = (natsFrom c (k1 + k2)).map mkPlaceholder
      rw [List.map_append, hm1, hm2, hc1]
      rw [← List.map_append]
      congr 1
      exact (natsFromAppend k1 c k2).symm

theorem digitCharVal : ∀ n, n < 10 → (Nat.digitChar n).toNat - 48 = n := by decide

theorem parseNatDigitsAux : ∀ (fuel n : Nat), n < fuel →
    parseDigits (natDigitsAux fuel n) = n := by
  intro fuel
  induction fuel with
  | zero => intro n h; omega
  | succ f ih =>
    intro n h
    by_cases h10 : n < 10
    · simp only [natDigitsAux, if_pos h10]
      have hd : (Nat.digitChar n).toNat - 48 = n := digitCharVal n h10
      simp [parseDigits, hd]
    · simp only [natDigitsAux, if_neg h10]
      have hrec : parseDigits (natDigitsAux f (n / 10)) = n / 10 := by
        apply ih
        have h1 : 0 < n := by omega
        have h2 : n / 10 < n := Nat.div_lt_self h1 (by omega)
        omega
      have hsplit : parseDigits (natDigitsAux f (n / 10) ++ [Nat.digitChar (n % 10)]) =
          10 * parseDigits (natDigitsAux f (n / 10)) + ((Nat.digitChar (n % 10)).toNat - 48) := by
        unfold parseDigits
        rw [List.foldl_append]
        rfl
      rw [hsplit, hrec, digitCharVal (n % 10) (by omega)]
      omega

theorem natDigitsInj (m n : Nat) (h : natDigits m = natDigits n) : m = n := by
  have hm := parseNatDigitsAux (m + 1) m (Nat.lt_succ_self m)
  have hn := parseNatDigitsAux (n + 1) n (Nat.lt_succ_self n)
  unfold natDigits at h
  rw [← hm, ← hn, h]

theorem mkPlaceholderInj : Function.Injective mkPlaceholder := by
  intro m n h
  apply natDigitsInj
  have h2 := congrArg (List.drop ("PDFEXPORTER_MATH_".data.length)) h
  unfold mkPlaceholder at h2
  rwa [dropAppendSelf, dropAppendSelf] at h2

theorem processCellFrame (c : Nat) (cell : Cell) :
    preservesFrame cell (processCell c cell).1 := by
  cases cell with
  | mk ct src outs =>
    cases outs with
    | none =>
      refine ⟨rfl, rfl, fun _ => rfl, ?_⟩
      intro os os1 hos hos1
      exact absurd hos (by simp [processCell])
    | some os =>
      refine ⟨rfl, rfl, ?_, ?_⟩
      · intro h0
        exact absurd h0 (by simp)
      · intro os0 os1 hos0 hos1
        simp only [processCell] at hos1
        have h1 : os0 = os := by
          simpa using hos0.symm
        have h2 : os1 = (processOutputs c os).1 := by
          simpa using hos1.symm
        rw [h1, h2]
        exact processOutputsFrame os c

theorem processCellKinds (c : Nat) (cell : Cell) :
    kindsRewritten cell (processCell c cell).1 := by
  cases cell with
  | mk ct src outs =>
    cases outs with
    | none =>
      refine ⟨fun _ => rfl, ?_⟩
      intro os os1 hos hos1
      exact absurd hos (by simp [processCell])
    | some os =>
      refine ⟨?_, ?_⟩
      · intro h0
        exact absurd h0 (by simp)
      · intro os0 os1 hos0 hos1
        simp only [processCell] at hos1
        have h1 : os0 = os := by
          simpa using hos0.symm
        have h2 : os1 = (processOutputs c os).1 := by
          simpa using hos1.symm
        rw [h1, h2]
        exact processOutputsKinds os c

theorem processCellNoUpd (c : Nat) (cell : Cell) :
    ∀ os, ((processCell c cell).1).outputs = some os →
      ∀ o, o ∈ os → o.output_type ≠ "update_display_data".data := by
  cases cell with
  | mk ct src outs =>
    cases outs with
    | none =>
      intro os hos o hmem
      exact absurd hos (by simp [processCell])
    | some os0 =>
      intro os hos o hmem
      simp only [processCell] at hos
      have h2 : os = (processOutputs c os0).1 := by
        simpa using hos.symm
      rw [h2] at hmem
      exact processOutputsNoUpd os0 c o hmem

theorem processCellsFrame (cells : List Cell) : ∀ (c : Nat),
    List.Forall₂ preservesFrame cells (processCells c cells).1 := by
  induction cells with
  | nil => intro c; exact List.Forall₂.nil
  | cons cell rest ih =>
    intro c
    show List.Forall₂ preservesFrame (cell :: rest)
      ((processCell c cell).1 :: (processCells ((processCell c cell).2.2) rest).1)
    exact List.Forall₂.cons (processCellFrame c cell) (ih _)

theorem processCellsKinds (cells : List Cell) : ∀ (c : Nat),
    List.Forall₂ kindsRewritten cells (processCells c cells).1 := by
  induction cells with
  | nil => intro c; exact List.Forall₂.nil
  | cons cell rest ih =>
    intro c
    show List.Forall₂ kindsRewritten (cell :: rest)
      ((processCell c cell).1 :: (processCells ((processCell c cell).2.2) rest).1)
    exact List.Forall₂.cons (processCellKinds c cell) (ih _)

theorem processCellsNoUpd (cells : List Cell) : ∀ (c : Nat) (cell1 : Cell),
    cell1 ∈ (processCells c cells).1 → ∀ os, cell1.outputs = some os →
      ∀ o, o ∈ os → o.output_type ≠ "update_display_data".data := by
  induction cells with
  | nil => intro c cell1 h; simp [processCells] at h
  | cons cell rest ih =>
    intro c cell1 h
    have h2 : cell1 ∈ (processCell c cell).1 :: (processCells ((processCell c cell).2.2) rest).1 := h
    rcases List.mem_cons.mp h2 with h3 | h4
    · intro os hos o hmem
      rw [h3] at hos
      exact processCellNoUpd c cell os hos o hmem
    · exact ih _ cell1 h4

theorem isPreExists : ∀ (p l : List Char), isPre p l = true → ∃ z, l = p ++ z := by
  intro p
  induction p with
  | nil => intro l _; exact ⟨l, rfl⟩
  | cons a as ih =>
    intro l h
    cases l with
    | nil => simp [isPre] at h
    | cons b bs =>
      simp only [isPre, Bool.and_eq_true, decide_eq_true_eq] at h
      obtain ⟨z, hz⟩ := ih bs h.2
      refine ⟨z, ?_⟩
      rw [← h.1, hz]
      rfl

theorem getLastConcat (l : List Char) (a : Char) : (l ++ [a]).getLast? = some a := by
  rw [List.getLast?_append_of_ne_nil l (by simp)]
  rfl

theorem stripDisplayStyleWrapped (X : List Char) :
    stripDisplayStyle (dsMarker ++ (X ++ ['$'])) = trimStr X := by
  unfold stripDisplayStyle
  rw [if_pos]
  · congr 1
    rw [dropAppendSelf]
    exact List.dropLast_concat
  · refine ⟨isPreAppendSelf _ _, ?_, ?_⟩
    · rw [← List.append_assoc]
      exact getLastConcat _ '$'
    · simp [List.length_append]

theorem stripDisplayStyleUnwrapped (raw : List Char)
    (h : ¬ ∃ X, raw = dsMarker ++ (X ++ ['$'])) :
    stripDisplayStyle raw = raw := by
  unfold stripDisplayStyle
  rw [if_neg]
  intro hc
  obtain ⟨hpre, hlast, hlen⟩ := hc
  obtain ⟨z, hz⟩ := isPreExists dsMarker raw hpre
  have hzne : z ≠ [] := by
    intro hz0
    rw [hz, hz0] at hlen
    simp at hlen
  have hlz : z.getLast? = some '$' := by
    rw [hz, List.getLast?_append_of_ne_nil dsMarker hzne] at hlast
    exact hlast
  have hglz : z.getLast hzne = '$' := by
    have h5 := List.getLast?_eq_getLast_of_ne_nil hzne
    rw [h5] at hlz
    exact Option.some.inj hlz
  apply h
  refine ⟨z.dropLast, ?_⟩
  rw [hz]
  congr 1
  rw [← hglz]
  exact (List.dropLast_append_getLast hzne).symm

theorem preprocessMathNotebook (v : MimeVal) :
    (preprocessNotebook (mkMathNotebook v)).2 =
      [(mkPlaceholder 0, stripDisplayStyle (trimStr (joinVal v)))] := rfl

theorem spliceEntryNoOcc (doc ph T : List Char) (h : indexOfSub doc ph = none) :
    spliceEntry doc ph T = doc := by
  unfold spliceEntry
  rw [h]

theorem spliceEntryNoFence (doc ph T : List Char) (idx : Nat)
    (h1 : indexOfSub doc ph = some idx)
    (h2 : charIndexFrom doc btick (idx + ph.length) = none) :
    spliceEntry doc ph T = doc := by
  unfold spliceEntry
  rw [h1]
  simp only [h2]

theorem indexOfSubNoneOfNoOcc (doc ph : List Char) (h : ∀ j, isPre ph (doc.drop j) = false) :
    indexOfSub doc ph = none := indexOfAuxNone doc ph 0 h

theorem charIndexFromNoneOfNoChar (doc : List Char) (c : Char) (start : Nat)
    (h : ∀ a, a ∈ doc.drop start → a ≠ c) :
    charIndexFrom doc c start = none := charIndexAuxNone (doc.drop start) c start h

/-- C1: for a map entry whose placeholder first occurs inside a fenced
literal block — the opening fence a maximal backtick run found by scanning
backward from the occurrence, the closing fence a maximal backtick run after
it, of possibly different width — the splicer replaces the entire span from
the start of the opening fence to the end of the closing fence with the
trimmed converted math markup (`conv = some out`), or, when per-fragment
conversion failed (`conv = none`), with the literal fallback block embedding
the raw unconverted math source verbatim. -/
theorem C1_splicer_replaces_fenced_span (A M P N R latex : List Char)
    (conv : Option (List Char)) (k1 k2 : Nat)
    (hk1 : 0 < k1) (hk2 : 0 < k2) (hP : P ≠ [])
    (hPb : ∀ a, a ∈ P → a ≠ btick)
    (hM : ∀ a, a ∈ M → a ≠ btick)
    (hN : ∀ a, a ∈ N → a ≠ btick)
    (hA : A.getD (A.length - 1) ' ' ≠ btick)
    (hR : R.getD 0 ' ' ≠ btick)
    (hfirst : ∀ j, j < A.length + k1 + M.length →
      isPre P ((A ++ (List.replicate k1 btick ++ (M ++ (P ++ (N ++ (List.replicate k2 btick ++ R)))))).drop j) = false) :
    spliceEntry (A ++ (List.replicate k1 btick ++ (M ++ (P ++ (N ++ (List.replicate k2 btick ++ R)))))) P
      (typstMathFor latex conv)
      = A ++ (typstMathFor latex conv ++ '\n' :: R) :=
  spliceEntryFenced A M P N R (typstMathFor latex conv) k1 k2 hk1 hk2 hP hPb hM hN hA hR hfirst

/-- Witness for C1 at a concrete document with three-backtick fences and a
successfully converted fragment. -/
theorem C1_witness :
    (∀ j, j < ("x\n".data).length + 3 + ("\n".data).length →
      isPre "PDFEXPORTER_MATH_0".data
        (("x\n".data ++ (List.replicate 3 btick ++ ("\n".data ++ ("PDFEXPORTER_MATH_0".data ++
          ("\n".data ++ (List.replicate 3 btick ++ "\nz".data)))))).drop j) = false) ∧
    spliceEntry ("x\n".data ++ (List.replicate 3 btick ++ ("\n".data ++ ("PDFEXPORTER_MATH_0".data ++
        ("\n".data ++ (List.replicate 3 btick ++ "\nz".data)))))) "PDFEXPORTER_MATH_0".data
      (typstMathFor "x^2".data (some "  $ x^2 $\n".data))
      = "x\n".data ++ (typstMathFor "x^2".data (some "  $ x^2 $\n".data) ++ '\n' :: "\nz".data) :=
  ⟨by decide,
   C1_splicer_replaces_fenced_span "x\n".data "\n".data "PDFEXPORTER_MATH_0".data "\n".data
     "\nz".data "x^2".data (some "  $ x^2 $\n".data) 3 3 (by decide) (by decide) (by decide)
     (by decide) (by decide) (by decide) (by decide) (by decide) (by decide)⟩

/-- C2: a map entry whose placeholder has no occurrence in the document, or
no fence character after its first occurrence, is skipped: the document is
left unchanged by that entry and splicing continues with the remaining
entries; the splicer is a total function, so this condition never surfaces
as an export failure. -/
theorem C2_splicer_skips_unmatched_entries (frag : List Char → Option (List Char))
    (doc ph latex : List Char) (rest : List (List Char × List Char))
    (h : (∀ j, isPre ph (doc.drop j) = false) ∨
      (∃ idx, indexOfSub doc ph = some idx ∧
        ∀ a, a ∈ doc.drop (idx + ph.length) → a ≠ btick)) :
    postprocessTypst frag doc ((ph, latex) :: rest) = postprocessTypst frag doc rest := by
  have hskip : spliceEntry doc ph (typstMathFor latex (frag latex)) = doc := by
    cases h with
    | inl hno => exact spliceEntryNoOcc doc ph _ (indexOfSubNoneOfNoOcc doc ph hno)
    | inr hex =>
      obtain ⟨idx, hidx, hfc⟩ := hex
      exact spliceEntryNoFence doc ph _ idx hidx (charIndexFromNoneOfNoChar doc btick _ hfc)
  calc postprocessTypst frag doc ((ph, latex) :: rest)
      = postprocessTypst frag (spliceEntry doc ph (typstMathFor latex (frag latex))) rest := rfl
    _ = postprocessTypst frag doc rest := by rw [hskip]

/-- Witness for C2 at a document where the placeholder occurs but no fence
character follows it. -/
theorem C2_witness :
    (indexOfSub "``` PDFEXPORTER_MATH_0 end".data "PDFEXPORTER_MATH_0".data = some 4 ∧
      ∀ a, a ∈ ("``` PDFEXPORTER_MATH_0 end".data).drop (4 + ("PDFEXPORTER_MATH_0".data).length) →
        a ≠ btick) ∧
    postprocessTypst (fun _ => none) "``` PDFEXPORTER_MATH_0 end".data
        [("PDFEXPORTER_MATH_0".data, "x".data)]
      = postprocessTypst (fun _ => none) "``` PDFEXPORTER_MATH_0 end".data [] :=
  ⟨⟨by decide, by decide⟩,
   C2_splicer_skips_unmatched_entries (fun _ => none) "``` PDFEXPORTER_MATH_0 end".data
     "PDFEXPORTER_MATH_0".data "x".data [] (Or.inr ⟨4, by decide, by decide⟩)⟩

/-- C8: splicing any document with an empty math map returns the document
unchanged. -/
theorem C8_splice_empty_map (frag : List Char → Option (List Char)) (doc : List Char) :
    postprocessTypst frag doc [] = doc := rfl

/-- C3: for a math source whose joined and trimmed text has the form
`$\displaystyle X$`, extraction stores exactly `X` (wrapper stripped, inner
whitespace borders removed) in the math map; for any other source the stored
value is the joined, trimmed input unchanged. -/
theorem C3_displaystyle_wrapper_stripped (v : MimeVal) (X : List Char) :
    (trimStr (joinVal v) = dsMarker ++ (X ++ ['$']) →
      (preprocessNotebook (mkMathNotebook v)).2 = [(mkPlaceholder 0, trimStr X)]) ∧
    ((¬ ∃ Y, trimStr (joinVal v) = dsMarker ++ (Y ++ ['$'])) →
      (preprocessNotebook (mkMathNotebook v)).2 = [(mkPlaceholder 0, trimStr (joinVal v))]) := by
  constructor
  · intro hw
    rw [preprocessMathNotebook v, hw, stripDisplayStyleWrapped]
  · intro hnw
    rw [preprocessMathNotebook v, stripDisplayStyleUnwrapped _ hnw]

/-- Witness for C3 at the wrapped source `$\displaystyle  x^2 $`. -/
theorem C3_witness :
    trimStr (joinVal (MimeVal.str "$\\displaystyle  x^2 $".data)) = dsMarker ++ ("  x^2 ".data ++ ['$']) ∧
    (preprocessNotebook (mkMathNotebook (MimeVal.str "$\\displaystyle  x^2 $".data))).2
      = [(mkPlaceholder 0, trimStr "  x^2 ".data)] :=
  ⟨by decide,
   (C3_displaystyle_wrapper_stripped (MimeVal.str "$\\displaystyle  x^2 $".data) "  x^2 ".data).1
     (by decide)⟩

/-- Counterexample to C4 as stated: extraction on `collidingNotebook`
generates the placeholder `PDFEXPORTER_MATH_0`, which is literally present
in the notebook's content (a cell source) before extraction. -/
theorem C4_counterexample :
    "PDFEXPORTER_MATH_0".data ∈ (preprocessNotebook collidingNotebook).2.map Prod.fst ∧
    "PDFEXPORTER_MATH_0".data ∈ notebookTexts collidingNotebook := by decide

/-- C4 (amended): the placeholder tokens generated within one extraction
call are pairwise distinct, for every notebook; they are however not
guaranteed to differ from text already present in the notebook. -/
theorem C4_placeholders_pairwise_distinct (nb : Notebook) :
    ((preprocessNotebook nb).2.map Prod.fst).Nodup := by
  obtain ⟨k, hc, hm⟩ := processCellsKeys nb.cells 0
  show ((processCells 0 nb.cells).2.1.map Prod.fst).Nodup
  rw [hm]
  exact (nodupNatsFrom k 0).map mkPlaceholderInj

/-- C7: for every notebook, the extractor rewrites every output kind by
`updKind` (so each `update_display_data` output becomes `display_data`)
before any output leaves it, including outputs carrying no math
representation, and no output of the result carries the
`update_display_data` kind. -/
theorem C7_update_display_data_normalized (nb : Notebook) :
    List.Forall₂ kindsRewritten nb.cells (preprocessNotebook nb).1.cells ∧
    (∀ cell, cell ∈ (preprocessNotebook nb).1.cells → ∀ os, cell.outputs = some os →
      ∀ o, o ∈ os → o.output_type ≠ "update_display_data".data) := by
  constructor
  · show List.Forall₂ kindsRewritten nb.cells (processCells 0 nb.cells).1
    exact processCellsKinds nb.cells 0
  · intro cell hmem os hos o hom
    have h2 : cell ∈ (processCells 0 nb.cells).1 := hmem
    exact processCellsNoUpd nb.cells 0 cell h2 os hos o hom

/-- Witness for C7 at a one-output notebook whose output kind is
`update_display_data`. -/
theorem C7_witness :
    (Output.mk "display_data".data none).output_type ≠ "update_display_data".data :=
  (C7_update_display_data_normalized
      (Notebook.mk [Cell.mk "code".data [] (some [Output.mk "update_display_data".data none])])).2
    (Cell.mk "code".data [] (some [Output.mk "display_data".data none])) (by decide)
    [Output.mk "display_data".data none] rfl
    (Output.mk "display_data".data none) (by decide)

/-- C10: the extractor preserves the frame of every notebook: cell types and
sources are untouched, cells whose `outputs` attribute is not an array are
returned unchanged, and outputs with no `text/latex` entry are unchanged
except for the `update_display_data` kind rewrite. -/
theorem C10_extractor_frame (nb : Notebook) :
    List.Forall₂ preservesFrame nb.cells (preprocessNotebook nb).1.cells := by
  show List.Forall₂ preservesFrame nb.cells (processCells 0 nb.cells).1
  exact processCellsFrame nb.cells 0

/-- Witness for C10 at a two-cell notebook (one markdown cell without an
outputs array, one code cell with a latex-free output). -/
theorem C10_witness :
    List.Forall₂ preservesFrame
      (Notebook.mk [Cell.mk "markdown".data "# T".data none,
        Cell.mk "code".data [] (some [Output.mk "stream".data none])]).cells
      (preprocessNotebook (Notebook.mk [Cell.mk "markdown".data "# T".data none,
        Cell.mk "code".data [] (some [Output.mk "stream".data none])])).1.cells :=
  C10_extractor_frame
    (Notebook.mk [Cell.mk "markdown".data "# T".data none,
      Cell.mk "code".data [] (some [Output.mk "stream".data none])])

/-- C5: when initialization succeeded and the whole-notebook converter call
returns a stderr stream containing the literal `ERROR` marker, the export
throws the conversion-failure error carrying the stderr text, the export is
aborted (an error is returned, no success event is emitted), and the
progress collaborator is notified of failure before the error propagates to
the caller. -/
theorem C5_error_marker_aborts_export (env : ExportEnv) (nb : Notebook) (r : ConvertResult)
    (hInit : env.initResult = Except.ok ())
    (hMain : env.mainResult = Except.ok r)
    (hErr : containsSub r.stderr "ERROR".data = true) :
    exportRun env nb =
      ([ProgressEvent.start "Preparing PDF export…".data,
        ProgressEvent.update "Converting notebook…".data,
        ProgressEvent.finish "PDF export failed".data],
       Except.error ("Pandoc conversion failed: ".data ++ r.stderr)) := by
  have hne : r.stderr ≠ [] := by
    intro h0
    rw [h0] at hErr
    exact absurd hErr (by decide)
  simp only [exportRun, exportBody, hInit, hMain]
  rw [if_pos ⟨hne, hErr⟩]
  rfl

/-- Witness for C5 at a concrete environment whose converter reports
`pandoc: ERROR: bad ipynb`. -/
theorem C5_witness :
    containsSub "pandoc: ERROR: bad ipynb".data "ERROR".data = true ∧
    exportRun
        (ExportEnv.mk (Except.ok ())
          (Except.ok (ConvertResult.mk "out".data "pandoc: ERROR: bad ipynb".data []))
          (fun _ => none) (fun _ => Except.ok (some [37])))
        (Notebook.mk []) =
      ([ProgressEvent.start "Preparing PDF export…".data,
        ProgressEvent.update "Converting notebook…".data,
        ProgressEvent.finish "PDF export failed".data],
       Except.error ("Pandoc conversion failed: ".data ++ "pandoc: ERROR: bad ipynb".data)) :=
  ⟨by decide,
   C5_error_marker_aborts_export
     (ExportEnv.mk (Except.ok ())
       (Except.ok (ConvertResult.mk "out".data "pandoc: ERROR: bad ipynb".data []))
       (fun _ => none) (fun _ => Except.ok (some [37])))
     (Notebook.mk []) (ConvertResult.mk "out".data "pandoc: ERROR: bad ipynb".data [])
     rfl rfl (by decide)⟩

/-- C6: when the pipeline reaches the compilation step (initialization and
conversion succeeded, no error marker) and the typesetting engine returns a
missing or zero-length byte buffer, the export fails with the distinct
empty-output error message, not success and not a generic error. -/
theorem C6_empty_pdf_distinct_failure (env : ExportEnv) (nb : Notebook) (r : ConvertResult)
    (opd : Option (List Nat))
    (hInit : env.initResult = Except.ok ())
    (hMain : env.mainResult = Except.ok r)
    (hNoErr : containsSub r.stderr "ERROR".data = false)
    (hPdf : ∀ s, env.pdfResult s = Except.ok opd)
    (hEmpty : opd = none ∨ opd = some []) :
    exportRun env nb =
      ([ProgressEvent.start "Preparing PDF export…".data,
        ProgressEvent.update "Converting notebook…".data,
        ProgressEvent.update "Generating PDF…".data,
        ProgressEvent.finish "PDF export failed".data],
       Except.error "Typst produced empty PDF output".data) := by
  have hcond : ¬ (r.stderr ≠ [] ∧ containsSub r.stderr "ERROR".data = true) := by
    intro hc
    rw [hNoErr] at hc
    exact absurd hc.2 (by decide)
  simp only [exportRun, exportBody, hInit, hMain]
  rw [if_neg hcond, hPdf]
  cases hEmpty with
  | inl h0 => rw [h0]; rfl
  | inr h0 => rw [h0]; rfl

/-- Witness for C6 at a concrete environment whose typesetting engine
returns a zero-length buffer. -/
theorem C6_witness :
    containsSub "warnings only".data "ERROR".data = false ∧
    exportRun
        (ExportEnv.mk (Except.ok ())
          (Except.ok (ConvertResult.mk "out".data "warnings only".data []))
          (fun _ => none) (fun _ => Except.ok (some [])))
        (Notebook.mk []) =
      ([ProgressEvent.start "Preparing PDF export…".data,
        ProgressEvent.update "Converting notebook…".data,
        ProgressEvent.update "Generating PDF…".data,
        ProgressEvent.finish "PDF export failed".data],
       Except.error "Typst produced empty PDF output".data) :=
  ⟨by decide,
   C6_empty_pdf_distinct_failure
     (ExportEnv.mk (Except.ok ())
       (Except.ok (ConvertResult.mk "out".data "warnings only".data []))
       (fun _ => none) (fun _ => Except.ok (some [])))
     (Notebook.mk []) (ConvertResult.mk "out".data "warnings only".data [])
     (some []) rfl rfl (by decide) (fun _ => rfl) (Or.inr rfl)⟩

/-- Counterexample to C9 as stated: after a failed first initialization,
both loaders return the cached rejected loading promise on the next call —
even though a retried import would succeed (the second oracle outcome is
`Except.ok ()`) — instead of retrying the initialization. -/
theorem C9_counterexample :
    (loadPandocStep
        (loadPandocStep (PandocLoaderState.mk false none) (Except.error "load failed".data)).1
        (Except.ok ())).2 = Except.error "load failed".data ∧
    (loadTypstStep
        (loadTypstStep (TypstLoaderState.mk false none) (Except.error "load failed".data)).1
        (Except.ok ())).2 = Except.error "load failed".data :=
  ⟨rfl, rfl⟩

/-- C9 (amended): a failed one-time initialization does not mark either
engine ready (`pandocConvert` stays unset, `typstLoaded` stays false), but
the rejected loading promise remains cached: every subsequent call returns
the cached failure unchanged, with no retry of the import. -/
theorem C9_failure_not_ready_but_cached (e : List Char) (r2 : Except (List Char) Unit) :
    (loadPandocStep (PandocLoaderState.mk false none) (Except.error e)).1.convertLoaded = false ∧
    (loadPandocStep (loadPandocStep (PandocLoaderState.mk false none) (Except.error e)).1 r2).2
      = Except.error e ∧
    (loadTypstStep (TypstLoaderState.mk false none) (Except.error e)).1.typstLoaded = false ∧
    (loadTypstStep (loadTypstStep (TypstLoaderState.mk false none) (Except.error e)).1 r2).2
      = Except.error e :=
  ⟨rfl, rfl, rfl, rfl⟩
